import Mathlib

/-!
Verification of the expense-tracker domain logic.

The definitions below are a shallow embedding of the repository's
transaction/category logic:

* `calculateTotals`, `applyFilters` — `src/components/Dashboard.tsx`
  (`calculateTotals`, `applyFilters`);
* `hasKey`, `insertIntoGroups`, `groupedTransactions`, `groupByDate` —
  `src/components/TransactionList.tsx` (`groupedTransactions`, `sortedDates`);
* `initDefaultCategories` — `Dashboard.tsx` (the default-category seeding
  routine guarded by a `limit(1)` query on the owner's categories);
* `deleteCategory` — `CategoryManager.tsx` `handleDelete` together with the
  `ON DELETE SET NULL` foreign key of the `transactions` table in
  `supabase/migrations/20251027113359_create_expense_tracker_schema.sql`;
* `listTransactions` — the `order(date, desc).order(created_at, desc)`
  query in `Dashboard.tsx` `loadTransactions`, scoped to the owner by the
  row-level-security policies of the migration;
* `loadTransactions` (state update) — the `if (data) setTransactions(data)`
  result handling of `Dashboard.tsx` `loadTransactions`;
* `loadCategories` — the category reload of the add/edit-transaction modal.

Monetary amounts are modelled as rationals (`ℚ`); the `numeric(10,2)` column
of the schema stores exact two-decimal values, which embed into `ℚ` without
loss.  Dates are the `date` column values serialised as `YYYY-MM-DD`
strings; on such strings the JavaScript comparator
`new Date(b).getTime() - new Date(a).getTime()` is strictly monotone in the
lexicographic string order, so date comparison is modelled by the
lexicographic order on `String`.
-/

namespace ExpenseTracker

/-- The `type` discriminator of both transactions and categories:
`'expense' | 'income'`. -/
inductive TxnType where
  | expense
  | income
deriving DecidableEq, Repr

/-- A transaction row as stored in the `transactions` table and returned by
`select *` in `loadTransactions`.  `created_at` is modelled as a natural
number (creation order); `category_id` is the nullable foreign key. -/
structure Transaction where
  id : String
  user_id : String
  amount : ℚ
  type : TxnType
  description : String
  date : String
  created_at : Nat
  category_id : Option String
deriving DecidableEq, Repr

/-- A category row of the `categories` table. -/
structure Category where
  id : String
  user_id : String
  name : String
  type : TxnType
  color : String
  icon : String
deriving DecidableEq, Repr

/-- The totals record returned by `calculateTotals` in `Dashboard.tsx`. -/
structure Totals where
  income : ℚ
  expenses : ℚ
  balance : ℚ
deriving DecidableEq, Repr

/-- `calculateTotals` from `Dashboard.tsx`: income is the reduce-sum of the
income-typed rows of the filtered view, expenses the reduce-sum of the
expense-typed rows, and balance is `income - expenses`. -/
def calculateTotals (filteredTransactions : List Transaction) : Totals :=
  let income := (filteredTransactions.filter
      (fun t => t.type = TxnType.income)).foldl (fun sum t => sum + t.amount) 0
  let expenses := (filteredTransactions.filter
      (fun t => t.type = TxnType.expense)).foldl (fun sum t => sum + t.amount) 0
  { income := income, expenses := expenses, balance := income - expenses }

/-- The dashboard's type filter: `'all' | 'expense' | 'income'`. -/
inductive FilterType where
  | all
  | expense
  | income
deriving DecidableEq, Repr

/-- The strict-equality test `t.type === filterType` performed inside the
non-`all` branch of `applyFilters`. -/
def FilterType.matchesType : FilterType → TxnType → Bool
  | FilterType.expense, TxnType.expense => true
  | FilterType.income, TxnType.income => true
  | _, _ => false

/-- `applyFilters` from `Dashboard.tsx`: keep rows matching the type filter
when it is not `all`, then keep rows whose date starts with the selected
month when one is selected (the empty string is the "no period" value,
matching JavaScript's falsy test on `selectedMonth`). -/
def applyFilters (transactions : List Transaction) (filterType : FilterType)
    (selectedMonth : String) : List Transaction :=
  let filtered := transactions
  let filtered := if filterType ≠ FilterType.all then
      filtered.filter (fun t => filterType.matchesType t.type)
    else filtered
  if selectedMonth ≠ "" then
    filtered.filter (fun t => t.date.startsWith selectedMonth)
  else filtered

/-- Folding `(sum, t) => sum + t.amount` over a list starting from `init`
adds the sum of the amounts to `init`. -/
theorem foldl_add_amount (l : List Transaction) (init : ℚ) :
    l.foldl (fun sum t => sum + t.amount) init
      = init + (l.map (fun t => t.amount)).sum := by
  induction l generalizing init with
  | nil => simp
  | cons t l ih => simp [ih, add_assoc]

/-- C1: `calculateTotals` returns income equal to the sum of `amount` over
the income-typed rows of the filtered view, expenses equal to the sum of
`amount` over the expense-typed rows, and balance exactly `income -
expenses` as a rational number (negative balances are represented exactly,
never wrapped or clamped). -/
theorem calculateTotals_spec (filtered : List Transaction) :
    (calculateTotals filtered).income
        = ((filtered.filter (fun t => t.type = TxnType.income)).map
            (fun t => t.amount)).sum
  ∧ (calculateTotals filtered).expenses
        = ((filtered.filter (fun t => t.type = TxnType.expense)).map
            (fun t => t.amount)).sum
  ∧ (calculateTotals filtered).balance
        = (calculateTotals filtered).income - (calculateTotals filtered).expenses := by
  refine ⟨?_, ?_, ?_⟩ <;> simp [calculateTotals, foldl_add_amount]

/-- Splitting a transaction list by type partitions its amount sum. -/
theorem sum_income_add_sum_expense (l : List Transaction) :
    ((l.filter (fun t => t.type = TxnType.income)).map (fun t => t.amount)).sum
      + ((l.filter (fun t => t.type = TxnType.expense)).map (fun t => t.amount)).sum
      = (l.map (fun t => t.amount)).sum := by
  induction l with
  | nil => simp
  | cons t l ih =>
    cases htype : t.type <;>
      simp [List.filter_cons, htype] <;> linarith [ih]

/-- C10: every transaction's type is either income or expense, so each row
of the filtered view is counted in exactly one of the two totals and
`income + expenses` equals the amount sum of the whole filtered view. -/
theorem totals_partition_sum (filtered : List Transaction) :
    (calculateTotals filtered).income + (calculateTotals filtered).expenses
      = (filtered.map (fun t => t.amount)).sum := by
  have h := calculateTotals_spec filtered
  rw [h.1, h.2.1]
  exact sum_income_add_sum_expense filtered

/-- C2: the two filters compose by logical AND — the filtered view for
(type filter, period) equals the members of the type-only view that also
belong to the period-only view — and the result is a sublist of the input,
so the store's relative order is preserved without re-sorting. -/
theorem applyFilters_composition (T : List Transaction) (F : FilterType)
    (P : String) :
    applyFilters T F P
        = (applyFilters T F "").filter
            (fun t => decide (t ∈ applyFilters T FilterType.all P))
  ∧ (applyFilters T F P).Sublist T := by
  have hA : (if F ≠ FilterType.all then
      T.filter (fun t => F.matchesType t.type) else T).Sublist T := by
    by_cases hF : F = FilterType.all
    · simp [hF]
    · simp [hF, List.filter_sublist]
  constructor
  · by_cases hP : P = ""
    · subst hP
      simp only [applyFilters, ne_eq, not_true_eq_false, if_false]
      rw [eq_comm, List.filter_eq_self]
      intro t ht
      simp only [decide_eq_true_eq]
      exact hA.subset ht
    · simp only [applyFilters, ne_eq, hP, not_false_eq_true, if_true,
        not_true_eq_false, if_false]
      apply List.filter_congr
      intro t ht
      have htT : t ∈ T := hA.subset ht
      by_cases hm : t.date.startsWith P = true <;>
        simp [List.mem_filter, htT, hm]
  · by_cases hP : P = ""
    · subst hP
      simpa [applyFilters] using hA
    · simp only [applyFilters, ne_eq, hP, not_false_eq_true, if_true]
      exact (List.filter_sublist _).trans hA

/-- The record-key test `acc[date]` used by the grouping reduce in
`TransactionList.tsx`: does the accumulator already have a group for this
date? -/
def hasKey (acc : List (String × List Transaction)) (d : String) : Bool :=
  acc.any (fun p => p.1 = d)

/-- One step of the grouping reduce in `TransactionList.tsx`: push the
transaction onto its date's group, creating the group (at the end, in
key-insertion order) when the date is new. -/
def insertIntoGroups (acc : List (String × List Transaction))
    (t : Transaction) : List (String × List Transaction) :=
  if hasKey acc t.date then
    acc.map (fun p => if p.1 = t.date then (p.1, p.2 ++ [t]) else p)
  else
    acc ++ [(t.date, [t])]

/-- `groupedTransactions` from `TransactionList.tsx`: the reduce that builds
the date-keyed record, modelled as an association list in key-insertion
order (JavaScript string-keyed records enumerate non-index keys in
insertion order). -/
def groupedTransactions (transactions : List Transaction) :
    List (String × List Transaction) :=
  transactions.foldl insertIntoGroups []

/-- Lookup `groupedTransactions[date]` on the association list (first
matching key; keys are in fact distinct). -/
def groupVal : List (String × List Transaction) → String → List Transaction
  | [], _ => []
  | p :: ps, d => if p.1 = d then p.2 else groupVal ps d

/-- `sortedDates` followed by the render map in `TransactionList.tsx`: the
record's keys sorted by descending date, each paired with its group.  The
comparator `new Date(b).getTime() - new Date(a).getTime()` is modelled by
descending lexicographic order, which agrees with it on the `YYYY-MM-DD`
date strings of the `date` column. -/
def groupByDate (transactions : List Transaction) :
    List (String × List Transaction) :=
  let groups := groupedTransactions transactions
  let dates := (groups.map Prod.fst).mergeSort (fun a b => decide (b ≤ a))
  dates.map (fun d => (d, groupVal groups d))

theorem mem_keys_iff_hasKey (acc : List (String × List Transaction))
    (d : String) : d ∈ acc.map Prod.fst ↔ hasKey acc d = true := by
  constructor
  · intro h
    rcases List.mem_map.mp h with ⟨p, hp, hfst⟩
    exact List.any_eq_true.mpr ⟨p, hp, by simp [hfst]⟩
  · intro h
    rcases List.any_eq_true.mp h with ⟨p, hp, hd⟩
    exact List.mem_map.mpr ⟨p, hp, of_decide_eq_true hd⟩

theorem hasKey_eq_mem (acc : List (String × List Transaction)) (d : String) :
    hasKey acc d = decide (d ∈ acc.map Prod.fst) := by
  by_cases h : d ∈ acc.map Prod.fst
  · rw [decide_eq_true h, (mem_keys_iff_hasKey acc d).mp h]
  · rw [decide_eq_false h]
    have : ¬ hasKey acc d = true := fun hk =>
      h ((mem_keys_iff_hasKey acc d).mpr hk)
    simpa using this

theorem keys_map_update (t : Transaction)
    (acc : List (String × List Transaction)) :
    (acc.map (fun p => if p.1 = t.date then (p.1, p.2 ++ [t]) else p)).map
        Prod.fst
      = acc.map Prod.fst := by
  rw [List.map_map]
  apply List.map_congr_left
  intro p _
  by_cases hpt : p.1 = t.date <;> simp [hpt]

@[simp] theorem groupVal_nil (d : String) : groupVal [] d = [] := rfl

@[simp] theorem groupVal_cons (p : String × List Transaction)
    (ps : List (String × List Transaction)) (d : String) :
    groupVal (p :: ps) d = if p.1 = d then p.2 else groupVal ps d := rfl

theorem hasKey_cons_of_ne {p : String × List Transaction}
    {ps : List (String × List Transaction)} {d : String} (hp : ¬ p.1 = d) :
    hasKey (p :: ps) d = hasKey ps d := by
  simp [hasKey, List.any_cons, decide_eq_false hp]

theorem groupVal_of_not_hasKey {acc : List (String × List Transaction)}
    {d : String} (h : hasKey acc d = false) : groupVal acc d = [] := by
  induction acc with
  | nil => rfl
  | cons p ps ih =>
    simp only [hasKey, List.any_cons, Bool.or_eq_false_iff] at h
    simp only [groupVal_cons, if_neg (by simpa using h.1)]
    exact ih (by simpa [hasKey] using h.2)

theorem groupVal_append (xs ys : List (String × List Transaction))
    (d : String) :
    groupVal (xs ++ ys) d
      = if hasKey xs d then groupVal xs d else groupVal ys d := by
  induction xs with
  | nil => simp [hasKey]
  | cons p ps ih =>
    by_cases hp : p.1 = d
    · simp [hasKey, hp]
    · rw [List.cons_append, groupVal_cons, if_neg hp, ih,
        hasKey_cons_of_ne hp, groupVal_cons]
      by_cases hk : hasKey ps d = true
      · rw [if_pos hk, if_pos hk, if_neg hp]
      · rw [if_neg hk, if_neg hk]

theorem groupVal_map_update (t : Transaction)
    (acc : List (String × List Transaction)) (d : String) :
    groupVal (acc.map (fun p => if p.1 = t.date then (p.1, p.2 ++ [t]) else p)) d
      = groupVal acc d ++ (if d = t.date ∧ hasKey acc d then [t] else []) := by
  induction acc with
  | nil => simp [hasKey]
  | cons p ps ih =>
    simp only [List.map_cons]
    by_cases hpt : p.1 = t.date
    · rw [if_pos hpt]
      by_cases hp : p.1 = d
      · have hdt : d = t.date := hp.symm.trans hpt
        have hkd : hasKey (p :: ps) d = true := by
          simp [hasKey, List.any_cons, hp]
        rw [groupVal_cons, groupVal_cons, if_pos hp, if_pos hp,
          if_pos ⟨hdt, hkd⟩]
      · rw [groupVal_cons, groupVal_cons, if_neg hp, if_neg hp, ih,
          hasKey_cons_of_ne hp]
    · rw [if_neg hpt]
      by_cases hp : p.1 = d
      · have hdt : ¬ d = t.date := fun h => hpt (hp.trans h)
        rw [groupVal_cons, groupVal_cons, if_pos hp, if_pos hp,
          if_neg (fun hc => hdt hc.1), List.append_nil]
      · rw [groupVal_cons, groupVal_cons, if_neg hp, if_neg hp, ih,
          hasKey_cons_of_ne hp]

theorem groupVal_insert (acc : List (String × List Transaction))
    (t : Transaction) (d : String) :
    groupVal (insertIntoGroups acc t) d
      = groupVal acc d ++ (if d = t.date then [t] else []) := by
  unfold insertIntoGroups
  by_cases hk : hasKey acc t.date = true
  · rw [if_pos hk, groupVal_map_update]
    by_cases hdt : d = t.date
    · subst hdt
      simp [hk]
    · simp [hdt]
  · rw [if_neg hk, groupVal_append]
    by_cases hdt : d = t.date
    · subst hdt
      have hkd : hasKey acc t.date = false := by simpa using hk
      rw [if_neg (by simp [hkd]), groupVal_of_not_hasKey hkd]
      simp
    · by_cases hkd : hasKey acc d = true
      · rw [if_pos hkd]
        simp [hdt]
      · have hkd' : hasKey acc d = false := by simpa using hkd
        rw [if_neg (by simp [hkd']), groupVal_of_not_hasKey hkd']
        have hne : ¬ t.date = d := fun h => hdt h.symm
        simp [hdt, hne]

theorem groupVal_foldl (ts : List Transaction)
    (acc : List (String × List Transaction)) (d : String) :
    groupVal (ts.foldl insertIntoGroups acc) d
      = groupVal acc d ++ ts.filter (fun t => t.date = d) := by
  induction ts generalizing acc with
  | nil => simp
  | cons t ts ih =>
    rw [List.foldl_cons, ih, groupVal_insert, List.filter_cons,
      List.append_assoc]
    by_cases hdt : t.date = d
    · simp [hdt]
    · have hdt2 : ¬ d = t.date := fun h => hdt h.symm
      simp [hdt, hdt2]

/-- The group stored for date `d` is exactly the input subsequence of
transactions dated `d`, in arrival order. -/
theorem groupVal_groupedTransactions (ts : List Transaction) (d : String) :
    groupVal (groupedTransactions ts) d = ts.filter (fun t => t.date = d) := by
  simpa [groupVal] using groupVal_foldl ts [] d

theorem hasKey_map_update (t : Transaction)
    (acc : List (String × List Transaction)) (d : String) :
    hasKey (acc.map (fun p => if p.1 = t.date then (p.1, p.2 ++ [t]) else p)) d
      = hasKey acc d := by
  rw [hasKey_eq_mem, hasKey_eq_mem, keys_map_update]

theorem hasKey_insert (acc : List (String × List Transaction))
    (t : Transaction) (d : String) :
    hasKey (insertIntoGroups acc t) d
      = (hasKey acc d || decide (d = t.date)) := by
  unfold insertIntoGroups
  by_cases hk : hasKey acc t.date = true
  · rw [if_pos hk, hasKey_map_update]
    by_cases hdt : d = t.date
    · subst hdt
      simp [hk]
    · simp [hdt]
  · rw [if_neg hk]
    by_cases hdt : d = t.date
    · subst hdt
      simp [hasKey, List.any_append]
    · have : ¬ t.date = d := fun h => hdt h.symm
      simp [hasKey, List.any_append, hdt, this]

theorem hasKey_foldl (ts : List Transaction)
    (acc : List (String × List Transaction)) (d : String) :
    hasKey (ts.foldl insertIntoGroups acc) d
      = (hasKey acc d || ts.any (fun t => d = t.date)) := by
  induction ts generalizing acc with
  | nil => simp
  | cons t ts ih =>
    rw [List.foldl_cons, ih, hasKey_insert, List.any_cons, Bool.or_assoc]

/-- A date has a group iff some input transaction carries it. -/
theorem hasKey_groupedTransactions (ts : List Transaction) (d : String) :
    hasKey (groupedTransactions ts) d = ts.any (fun t => d = t.date) := by
  simpa [hasKey] using hasKey_foldl ts [] d

theorem keys_nodup_insert {acc : List (String × List Transaction)}
    (t : Transaction) (h : (acc.map Prod.fst).Nodup) :
    ((insertIntoGroups acc t).map Prod.fst).Nodup := by
  unfold insertIntoGroups
  by_cases hk : hasKey acc t.date = true
  · rw [if_pos hk, keys_map_update]
    exact h
  · rw [if_neg hk]
    have ht : t.date ∉ acc.map Prod.fst := fun hmem =>
      hk ((mem_keys_iff_hasKey acc t.date).mp hmem)
    simp only [List.map_append, List.map_cons, List.map_nil]
    rw [List.nodup_append]
    exact ⟨h, List.nodup_singleton _, by simpa using fun hmem => ht hmem⟩

theorem keys_nodup_foldl (ts : List Transaction)
    {acc : List (String × List Transaction)}
    (h : (acc.map Prod.fst).Nodup) :
    ((ts.foldl insertIntoGroups acc).map Prod.fst).Nodup := by
  induction ts generalizing acc with
  | nil => exact h
  | cons t ts ih => exact ih (keys_nodup_insert t h)

/-- The grouped record has pairwise-distinct date keys. -/
theorem keys_nodup_groupedTransactions (ts : List Transaction) :
    ((groupedTransactions ts).map Prod.fst).Nodup :=
  keys_nodup_foldl ts (by simp)

theorem flatMap_congr_mem {α β : Type} {l : List α} {f g : α → List β}
    (h : ∀ a ∈ l, f a = g a) : l.flatMap f = l.flatMap g := by
  induction l with
  | nil => rfl
  | cons a l ih =>
    rw [List.flatMap_cons, List.flatMap_cons, h a (by simp),
      ih (fun a ha => h a (by simp [ha]))]

/-- Concatenating, over a duplicate-free list of dates covering every
transaction's date, the date-filtered subsequences recovers the input up to
permutation. -/
theorem flatMap_filter_perm :
    ∀ (l : List String) (ts : List Transaction), l.Nodup →
      (∀ t ∈ ts, t.date ∈ l) →
      (l.flatMap (fun d => ts.filter (fun t => t.date = d))).Perm ts := by
  intro l
  induction l with
  | nil =>
    intro ts _ hcov
    cases ts with
    | nil => simp
    | cons t ts => exact absurd (hcov t (by simp)) (by simp)
  | cons d l ih =>
    intro ts hnd hcov
    have hd : d ∉ l := (List.nodup_cons.mp hnd).1
    have hl : l.Nodup := (List.nodup_cons.mp hnd).2
    rw [List.flatMap_cons]
    have hrw : l.flatMap (fun d2 => ts.filter (fun t => t.date = d2))
        = l.flatMap (fun d2 =>
            (ts.filter (fun t => !decide (t.date = d))).filter
              (fun t => t.date = d2)) := by
      apply flatMap_congr_mem
      intro d2 hd2
      have hne : d2 ≠ d := fun h => hd (h ▸ hd2)
      rw [List.filter_filter]
      apply List.filter_congr
      intro t _
      by_cases ht : t.date = d2
      · simp [ht, hne]
      · simp [ht]
    rw [hrw]
    have hperm := ih (ts.filter (fun t => !decide (t.date = d))) hl ?_
    · exact (hperm.append_left _).trans
        (List.filter_append_perm (fun t => decide (t.date = d)) ts)
    · intro t ht
      rw [List.mem_filter] at ht
      have := hcov t ht.1
      simp only [List.mem_cons] at this
      rcases this with h | h
      · exact absurd (decide_eq_true h) (by simpa using ht.2)
      · exact h

theorem mergeSort_desc_pairwise (l : List String) :
    (l.mergeSort (fun a b => decide (b ≤ a))).Pairwise
      (fun a b : String => b ≤ a) := by
  have h := @List.sorted_mergeSort String
    (fun a b : String => decide (b ≤ a))
    (fun a b c h1 h2 => decide_eq_true
      (le_trans (of_decide_eq_true h2) (of_decide_eq_true h1)))
    (fun a b => by
      rcases le_total a b with h | h <;> simp [h]) l
  exact h.imp (fun hab => of_decide_eq_true hab)

/-- C3: `groupByDate` partitions its input exactly — concatenating the
groups back gives a permutation of the input (no duplication or loss),
group dates are strictly descending (hence one group per distinct date),
each group is the input's date-filtered subsequence (arrival order
preserved), and the group dates are exactly the dates occurring in the
input. -/
theorem groupByDate_spec (ts : List Transaction) :
    ((groupByDate ts).flatMap (fun p => p.2)).Perm ts
  ∧ ((groupByDate ts).map Prod.fst).Pairwise (fun a b => b < a)
  ∧ (groupByDate ts).map Prod.snd
      = (groupByDate ts).map (fun p => ts.filter (fun t => t.date = p.1))
  ∧ ∀ d : String,
      (d ∈ (groupByDate ts).map Prod.fst ↔ d ∈ ts.map (fun t => t.date)) := by
  have hkeys : ((groupedTransactions ts).map Prod.fst).Nodup :=
    keys_nodup_groupedTransactions ts
  have hgbd : groupByDate ts
      = (((groupedTransactions ts).map Prod.fst).mergeSort
            (fun a b => decide (b ≤ a))).map
          (fun d => (d, groupVal (groupedTransactions ts) d)) := rfl
  have hperm_dates :
      (((groupedTransactions ts).map Prod.fst).mergeSort
          (fun a b => decide (b ≤ a))).Perm
        ((groupedTransactions ts).map Prod.fst) :=
    List.mergeSort_perm _ _
  have hnodup_dates :
      (((groupedTransactions ts).map Prod.fst).mergeSort
          (fun a b => decide (b ≤ a))).Nodup :=
    hperm_dates.nodup_iff.mpr hkeys
  have hfst : (groupByDate ts).map Prod.fst
      = ((groupedTransactions ts).map Prod.fst).mergeSort
          (fun a b => decide (b ≤ a)) := by
    rw [hgbd, List.map_map]
    exact List.map_id'' (fun d => rfl) _
  have hmem_dates : ∀ d : String,
      d ∈ ((groupedTransactions ts).map Prod.fst).mergeSort
            (fun a b => decide (b ≤ a))
        ↔ d ∈ ts.map (fun t => t.date) := by
    intro d
    rw [hperm_dates.mem_iff, mem_keys_iff_hasKey, hasKey_groupedTransactions]
    simp only [List.any_eq_true, decide_eq_true_eq, List.mem_map]
    constructor
    · rintro ⟨t, ht, hd⟩
      exact ⟨t, ht, hd.symm⟩
    · rintro ⟨t, ht, hd⟩
      exact ⟨t, ht, hd.symm⟩
  refine ⟨?_, ?_, ?_, ?_⟩
  · rw [hgbd, List.flatMap_map]
    have hcongr :
        (((groupedTransactions ts).map Prod.fst).mergeSort
            (fun a b => decide (b ≤ a))).flatMap
          (fun d => groupVal (groupedTransactions ts) d)
        = (((groupedTransactions ts).map Prod.fst).mergeSort
            (fun a b => decide (b ≤ a))).flatMap
          (fun d => ts.filter (fun t => t.date = d)) :=
      flatMap_congr_mem (fun d _ => groupVal_groupedTransactions ts d)
    rw [hcongr]
    apply flatMap_filter_perm _ ts hnodup_dates
    intro t ht
    rw [hmem_dates]
    exact List.mem_map.mpr ⟨t, ht, rfl⟩
  · rw [hfst]
    have hsorted := mergeSort_desc_pairwise ((groupedTransactions ts).map
      Prod.fst)
    have hne := hnodup_dates
    exact (hsorted.and hne).imp
      (fun hab => lt_of_le_of_ne hab.1 (Ne.symm hab.2))
  · rw [hgbd, List.map_map, List.map_map]
    apply List.map_congr_left
    intro d _
    simp [groupVal_groupedTransactions]
  · intro d
    rw [hfst, hmem_dates]

/-- C8: the empty filtered view produces zero totals, zero balance, and
zero groups — an empty state, not an error. -/
theorem empty_view_empty_state :
    calculateTotals [] = { income := 0, expenses := 0, balance := 0 }
  ∧ groupByDate [] = ([] : List (String × List Transaction)) := by
  constructor
  · simp [calculateTotals]
  · simp [groupByDate, groupedTransactions]

/-- The backing store: the owner-scoped `categories` and `transactions`
tables of the migration. -/
structure Store where
  categories : List Category
  transactions : List Transaction
deriving DecidableEq, Repr

/-- The `ON DELETE SET NULL` action of `transactions.category_id` in the
migration: a transaction referencing the deleted category keeps every other
field and has its reference resolved to null. -/
def clearCategoryRef (cid : String) (t : Transaction) : Transaction :=
  if t.category_id = some cid then
    { t with category_id := none }
  else t

/-- `handleDelete` in `CategoryManager.tsx` issues
`delete from categories where id = cid`; the foreign key
`category_id references categories(id) on delete set null` of the migration
then nulls the reference in every transaction that pointed at it.  No
transaction row is deleted. -/
def deleteCategory (cid : String) (st : Store) : Store :=
  { categories := st.categories.filter (fun c => !(c.id = cid : Bool)),
    transactions := st.transactions.map (clearCategoryRef cid) }

/-- C4: deleting a category never deletes a transaction — ids, amounts,
types, descriptions, dates, owners and creation stamps of all transactions
are unchanged — and every transaction that referenced the deleted category
now resolves its reference to null while all other references are
untouched; the category itself is gone. -/
theorem deleteCategory_spec (cid : String) (st : Store) :
    (deleteCategory cid st).transactions.length = st.transactions.length
  ∧ (deleteCategory cid st).transactions.map (fun t => t.id)
      = st.transactions.map (fun t => t.id)
  ∧ (deleteCategory cid st).transactions.map
        (fun t => (t.amount, t.type, t.description, t.date, t.user_id,
          t.created_at))
      = st.transactions.map
        (fun t => (t.amount, t.type, t.description, t.date, t.user_id,
          t.created_at))
  ∧ (deleteCategory cid st).transactions.map (fun t => t.category_id)
      = st.transactions.map
        (fun t => if t.category_id = some cid then none else t.category_id)
  ∧ ((deleteCategory cid st).categories.map (fun c => c.id)).count cid = 0 := by
  refine ⟨?_, ?_, ?_, ?_, ?_⟩
  · simp [deleteCategory]
  · simp only [deleteCategory, List.map_map]
    apply List.map_congr_left
    intro t _
    by_cases h : t.category_id = some cid <;> simp [clearCategoryRef, h]
  · simp only [deleteCategory, List.map_map]
    apply List.map_congr_left
    intro t _
    by_cases h : t.category_id = some cid <;> simp [clearCategoryRef, h]
  · simp only [deleteCategory, List.map_map]
    apply List.map_congr_left
    intro t _
    by_cases h : t.category_id = some cid <;> simp [clearCategoryRef, h]
  · rw [List.count_eq_zero]
    intro hmem
    rcases List.mem_map.mp hmem with ⟨c, hc, hid⟩
    rcases List.mem_filter.mp hc with ⟨_, hne⟩
    rw [hid] at hne
    simp at hne

/-- A category-insert payload as issued by the seeding routine of
`Dashboard.tsx` (the row sent to `insert`, before the store generates an
id). -/
structure CategoryInsert where
  user_id : String
  name : String
  type : TxnType
  color : String
  icon : String
deriving DecidableEq, Repr

/-- The fixed starter set inserted by the seeding routine of
`Dashboard.tsx`: six expense categories and four income categories, each
with name, type, color and icon, stamped with the owner's id. -/
def defaultCategoryPayloads (uid : String) : List CategoryInsert :=
  [ ⟨uid, "Food & Dining", TxnType.expense, "#ef4444", "utensils"⟩,
    ⟨uid, "Transportation", TxnType.expense, "#f97316", "car"⟩,
    ⟨uid, "Shopping", TxnType.expense, "#ec4899", "shopping-bag"⟩,
    ⟨uid, "Entertainment", TxnType.expense, "#8b5cf6", "film"⟩,
    ⟨uid, "Bills & Utilities", TxnType.expense, "#06b6d4", "receipt"⟩,
    ⟨uid, "Healthcare", TxnType.expense, "#10b981", "heart"⟩,
    ⟨uid, "Salary", TxnType.income, "#22c55e", "banknote"⟩,
    ⟨uid, "Freelance", TxnType.income, "#3b82f6", "briefcase"⟩,
    ⟨uid, "Investments", TxnType.income, "#14b8a6", "trending-up"⟩,
    ⟨uid, "Other Income", TxnType.income, "#84cc16", "plus"⟩ ]

/-- The default-category seeding routine of `Dashboard.tsx` (named
`initializeDefaultCategories` in the source): query the owner's categories
with `limit(1)`; when the result is empty, issue one insert of the fixed
starter set; otherwise issue nothing.  The returned list is the batch of
insert payloads sent to the store by this triggering load. -/
def initDefaultCategories (uid : String) (existing : List Category) :
    List CategoryInsert :=
  let existingCategories := (existing.filter (fun c => c.user_id = uid)).take 1
  if existingCategories.length = 0 then defaultCategoryPayloads uid else []

/-- C5: on the triggering load, an owner with zero categories receives
exactly one insert of the fixed starter set — ten payloads, six expense and
four income, each with name, kind, color and icon — while an owner with at
least one category receives no seeding insert. -/
theorem initDefaultCategories_spec (uid : String) (existing : List Category) :
    (existing.filter (fun c => c.user_id = uid) = [] →
        initDefaultCategories uid existing = defaultCategoryPayloads uid
      ∧ (defaultCategoryPayloads uid).length = 10
      ∧ ((defaultCategoryPayloads uid).filter
            (fun c => c.type = TxnType.expense)).length = 6
      ∧ ((defaultCategoryPayloads uid).filter
            (fun c => c.type = TxnType.income)).length = 4)
  ∧ (existing.filter (fun c => c.user_id = uid) ≠ [] →
        initDefaultCategories uid existing = []) := by
  constructor
  · intro hempty
    refine ⟨?_, rfl, rfl, rfl⟩
    simp [initDefaultCategories, hempty]
  · intro hne
    cases hfe : existing.filter (fun c => c.user_id = uid) with
    | nil => exact absurd hfe hne
    | cons c cs => simp [initDefaultCategories, hfe]

/-- Witness for C5: a fresh owner gets the ten starter payloads; an owner
who already has a category gets none. -/
theorem initDefaultCategories_witness :
    (initDefaultCategories "u1" [] = defaultCategoryPayloads "u1"
      ∧ (defaultCategoryPayloads "u1").length = 10
      ∧ ((defaultCategoryPayloads "u1").filter
            (fun c => c.type = TxnType.expense)).length = 6
      ∧ ((defaultCategoryPayloads "u1").filter
            (fun c => c.type = TxnType.income)).length = 4)
  ∧ initDefaultCategories "u1"
      [⟨"k1", "u1", "Food", TxnType.expense, "#ef4444", "circle"⟩] = [] :=
  ⟨(initDefaultCategories_spec "u1" []).1 (by decide),
   (initDefaultCategories_spec "u1"
      [⟨"k1", "u1", "Food", TxnType.expense, "#ef4444", "circle"⟩]).2
      (by decide)⟩

/-- The comparator behind `order(date, descending).order(created_at,
descending)` in `loadTransactions`: row `a` may precede row `b` when `a`'s
date is later, or the dates tie and `a` was created no earlier. -/
def listedBefore (a b : Transaction) : Bool :=
  decide (b.date < a.date)
    || (decide (a.date = b.date) && decide (b.created_at ≤ a.created_at))

/-- `loadTransactions`' store query: the owner's rows (row-level security
restricts the select to `auth.uid() = user_id`) ordered by date descending
with ties broken by `created_at` descending. -/
def listTransactions (uid : String) (st : Store) : List Transaction :=
  (st.transactions.filter (fun t => t.user_id = uid)).mergeSort listedBefore

theorem listedBefore_trans (a b c : Transaction) :
    listedBefore a b → listedBefore b c → listedBefore a c := by
  simp only [listedBefore, Bool.or_eq_true, Bool.and_eq_true,
    decide_eq_true_eq]
  rintro (h1 | ⟨h1, h1c⟩) (h2 | ⟨h2, h2c⟩)
  · exact Or.inl (lt_trans h2 h1)
  · exact Or.inl (h2 ▸ h1)
  · exact Or.inl (h1 ▸ h2)
  · exact Or.inr ⟨h1.trans h2, le_trans h2c h1c⟩

theorem listedBefore_total (a b : Transaction) :
    (listedBefore a b || listedBefore b a) = true := by
  simp only [listedBefore, Bool.or_eq_true, Bool.and_eq_true,
    decide_eq_true_eq]
  rcases lt_trichotomy a.date b.date with h | h | h
  · exact Or.inr (Or.inl h)
  · rcases Nat.le_total b.created_at a.created_at with hc | hc
    · exact Or.inl (Or.inr ⟨h, hc⟩)
    · exact Or.inr (Or.inr ⟨h.symm, hc⟩)
  · exact Or.inl (Or.inl h)

/-- C7: `listTransactions` returns exactly the owner's transactions,
ordered by date descending with ties within a date broken by creation
order descending (most recently created first). -/
theorem listTransactions_spec (uid : String) (st : Store) :
    (listTransactions uid st).Perm
        (st.transactions.filter (fun t => t.user_id = uid))
  ∧ (listTransactions uid st).Pairwise
      (fun a b => b.date < a.date
        ∨ (a.date = b.date ∧ b.created_at ≤ a.created_at)) := by
  constructor
  · exact List.mergeSort_perm _ _
  · have h := @List.sorted_mergeSort Transaction listedBefore
      (fun a b c => listedBefore_trans a b c)
      (fun a b => listedBefore_total a b)
      (st.transactions.filter (fun t => t.user_id = uid))
    exact h.imp (fun hab => by
      simpa [listedBefore, Bool.or_eq_true, Bool.and_eq_true,
        decide_eq_true_eq] using hab)

/-- The dashboard state touched by `loadTransactions`: the transaction
list and the loading flag. -/
structure DashboardState where
  transactions : List Transaction
  loading : Bool

/-- The result handling of `loadTransactions` in `Dashboard.tsx`: the
destructured `data` is either the fetched rows or null on a store-call
failure; the list state is replaced only when data is present
(`if (data) setTransactions(data)`), and loading always ends. -/
def loadTransactions (s : DashboardState)
    (result : Option (List Transaction)) : DashboardState :=
  { transactions :=
      match result with
      | some data => data
      | none => s.transactions,
    loading := false }

/-- C9: a failed load leaves the previously held transaction list exactly
as it was, and a successful load replaces it with the store's result; in
either case the component stays rendered (the state update is total and
never blanks the held list on failure). -/
theorem loadTransactions_spec (s : DashboardState) :
    (loadTransactions s none).transactions = s.transactions
  ∧ ∀ data : List Transaction,
      (loadTransactions s (some data)).transactions = data :=
  ⟨rfl, fun _ => rfl⟩

/-- `loadCategories` of the add/edit-transaction modal: reload the
candidate list as the categories of the currently chosen kind ordered by
name (`eq(type, type).order(name)`, owner-scoped by row-level security),
and default the selection to the first row only when no edit target is
loaded, the list is non-empty, and the current selection is the empty
string (`!editTransaction && data.length > 0 && !categoryId`).  Returns
the refreshed list and the resulting selection. -/
def loadCategories (storeCats : List Category) (ty : TxnType)
    (editing : Bool) (categoryId : String) : List Category × String :=
  let data := (storeCats.filter (fun c => c.type = ty)).mergeSort
      (fun a b => decide (a.name ≤ b.name))
  let newCategoryId :=
    match data with
    | [] => categoryId
    | c :: _ =>
      if editing = false ∧ categoryId = "" then c.id else categoryId
  (data, newCategoryId)

/-- The two stored categories of the counterexample scenario: one expense
category and one income category. -/
def demoExpenseCategory : Category :=
  ⟨"c1", "u1", "Lunch", TxnType.expense, "#ef4444", "utensils"⟩

/-- The single income category of the counterexample scenario. -/
def demoIncomeCategory : Category :=
  ⟨"c2", "u1", "Salary", TxnType.income, "#22c55e", "banknote"⟩

/-- The owner's category table in the counterexample scenario. -/
def demoCategories : List Category :=
  [demoExpenseCategory, demoIncomeCategory]

/-- Counterexample to C6: with the expense category `c1` selected, switch
the chosen kind to income while adding a transaction.  The list is
refreshed to the income categories, but the selection stays `"c1"` — it is
neither cleared nor defaulted, and `"c1"` is not among the eligible
categories, so the selection is left pointing at an ineligible category. -/
theorem loadCategories_counterexample :
    demoExpenseCategory.type = TxnType.expense
  ∧ (loadCategories demoCategories TxnType.income false "c1").1
      = [demoIncomeCategory]
  ∧ (loadCategories demoCategories TxnType.income false "c1").2 = "c1"
  ∧ ¬((loadCategories demoCategories TxnType.income false "c1").2 = ""
      ∨ (loadCategories demoCategories TxnType.income false "c1").2
          ∈ ((loadCategories demoCategories TxnType.income false "c1").1.map
              (fun c => c.id))) := by
  have hrun : loadCategories demoCategories TxnType.income false "c1"
      = ([demoIncomeCategory], "c1") := by
    simp only [loadCategories]
    rw [show demoCategories.filter (fun c => c.type = TxnType.income)
        = [demoIncomeCategory] from rfl]
    rw [List.mergeSort_singleton]
    decide
  refine ⟨rfl, ?_, ?_, ?_⟩
  · simp [hrun]
  · simp [hrun]
  · simp only [hrun]
    decide

/-- C6 (amended): switching the chosen kind refreshes the candidate list
to exactly the categories of the new kind; the selection is defaulted to
the first eligible category only when it was empty and no edit target is
loaded, and otherwise — in particular when it already points at a category
of the old kind — it is left unchanged, possibly at an ineligible
category. -/
theorem loadCategories_amended (storeCats : List Category) (ty : TxnType)
    (editing : Bool) (categoryId : String) :
    ((loadCategories storeCats ty editing categoryId).1).Perm
        (storeCats.filter (fun c => c.type = ty))
  ∧ (categoryId ≠ "" →
      (loadCategories storeCats ty editing categoryId).2 = categoryId)
  ∧ (editing = true →
      (loadCategories storeCats ty editing categoryId).2 = categoryId)
  ∧ (categoryId = "" → editing = false →
      (loadCategories storeCats ty editing categoryId).2
        = (((loadCategories storeCats ty editing categoryId).1.head?).map
            (fun c => c.id)).getD categoryId) := by
  refine ⟨List.mergeSort_perm _ _, ?_, ?_, ?_⟩
  · intro hne
    cases hdata : (storeCats.filter (fun c => c.type = ty)).mergeSort
        (fun a b => decide (a.name ≤ b.name)) with
    | nil =>
      simp only [loadCategories]
      rw [hdata]
    | cons c rest =>
      simp only [loadCategories]
      rw [hdata]
      simp [hne]
  · intro hedit
    cases hdata : (storeCats.filter (fun c => c.type = ty)).mergeSort
        (fun a b => decide (a.name ≤ b.name)) with
    | nil =>
      simp only [loadCategories]
      rw [hdata]
    | cons c rest =>
      simp only [loadCategories]
      rw [hdata]
      simp [hedit]
  · intro hempty hedit
    cases hdata : (storeCats.filter (fun c => c.type = ty)).mergeSort
        (fun a b => decide (a.name ≤ b.name)) with
    | nil =>
      simp only [loadCategories]
      rw [hdata]
      simp
    | cons c rest =>
      simp only [loadCategories]
      rw [hdata]
      simp [hempty, hedit]

/-- Witness for the amended C6: a non-empty stale selection survives the
kind switch unchanged, and an empty selection while adding is defaulted to
the first eligible category. -/
theorem loadCategories_amended_witness :
    ("c1" ≠ ""
      ∧ (loadCategories demoCategories TxnType.income false "c1").2 = "c1")
  ∧ ((loadCategories demoCategories TxnType.income false "").2
        = (((loadCategories demoCategories TxnType.income false
              "").1.head?).map (fun c => c.id)).getD "") :=
  ⟨⟨by decide,
    (loadCategories_amended demoCategories TxnType.income false "c1").2.1
      (by decide)⟩,
   (loadCategories_amended demoCategories TxnType.income false "").2.2.2
      rfl rfl⟩

end ExpenseTracker
